import Mathlib

/-!
Verification of the configuration composition engine of the
platoform-pulumi repository: the deep-merge utility (src/utils.ts) and the
application composition factory (src/app: index.ts, deployment.ts, cicd.ts,
scaler.ts, types.ts).

JavaScript runtime values are modelled by the inductive type JVal;
truthiness, property lookup, property assignment, spread and for-in
enumeration follow the JavaScript semantics the source relies on.
-/

namespace Platoform

/-- JavaScript runtime values as used by the merged configuration
documents: null, undefined, booleans, numbers (integers suffice for the
documents the engine builds), strings, arrays and plain objects (ordered
field lists, insertion order preserved as in JS). -/
inductive JVal : Type where
  | null : JVal
  | undefined : JVal
  | bool : Bool → JVal
  | num : Int → JVal
  | str : String → JVal
  | arr : List JVal → JVal
  | obj : List (String × JVal) → JVal

mutual
/-- Structural boolean equality on JVal (stands in for a derived
decidable equality, which Lean does not derive for this nested type). -/
def beqVal : JVal → JVal → Bool
  | .null, .null => true
  | .undefined, .undefined => true
  | .bool a, .bool b => a == b
  | .num a, .num b => a == b
  | .str a, .str b => a == b
  | .arr xs, .arr ys => beqElems xs ys
  | .obj fs, .obj gs => beqFields fs gs
  | _, _ => false

def beqElems : List JVal → List JVal → Bool
  | [], [] => true
  | x :: xs, y :: ys => beqVal x y && beqElems xs ys
  | _, _ => false

def beqFields : List (String × JVal) → List (String × JVal) → Bool
  | [], [] => true
  | (k, v) :: fs, (l, w) :: gs => k == l && beqVal v w && beqFields fs gs
  | _, _ => false
end

/-- JavaScript truthiness: null, undefined, false, 0 and the empty string
are falsy; every object (including the empty object and every array) is
truthy. -/
def truthy : JVal → Bool
  | .null => false
  | .undefined => false
  | .bool b => b
  | .num n => n != 0
  | .str s => !s.isEmpty
  | .arr _ => true
  | .obj _ => true

/-- The test performed by deepMerge on each source value:
source[key] && typeof source[key] === 'object' && !Array.isArray(source[key]).
null is falsy, arrays are excluded, so the test holds exactly for plain
objects. -/
def isRecord : JVal → Bool
  | .obj _ => true
  | _ => false

/-- For-in / spread enumeration of an array: own enumerable properties are
the index-keyed elements. -/
def arrEntries (xs : List JVal) : List (String × JVal) :=
  xs.enum.map (fun p => (toString p.1, p.2))

/-- For-in / spread enumeration of a string: index-keyed one-character
strings. -/
def strEntries (s : String) : List (String × JVal) :=
  s.data.enum.map (fun p => (toString p.1, JVal.str (String.mk [p.2])))

/-- Own enumerable properties of a value, as visited by for-in and copied
by object spread: an object's fields, an array's indexed elements, a
string's indexed characters; primitives have none. -/
def ownEntries : JVal → List (String × JVal)
  | .obj fs => fs
  | .arr xs => arrEntries xs
  | .str s => strEntries s
  | _ => []

/-- First-match lookup in a field list (JS objects never hold duplicate
keys, so first-match is the JS lookup). -/
def lookupField : List (String × JVal) → String → Option JVal
  | [], _ => none
  | (k, v) :: rest, key => if k = key then some v else lookupField rest key

/-- JS property read target[key]: undefined when absent. -/
def getProp (v : JVal) (key : String) : JVal :=
  match v with
  | .obj fs => (lookupField fs key).getD .undefined
  | .arr xs => (lookupField (arrEntries xs) key).getD .undefined
  | .str s => (lookupField (strEntries s) key).getD .undefined
  | _ => .undefined

/-- JS property assignment result[key] = v on an object's field list:
replaces the existing key in place, or appends a fresh key at the end. -/
def setField : List (String × JVal) → String → JVal → List (String × JVal)
  | [], key, v => [(key, v)]
  | (k, w) :: rest, key, v =>
      if k = key then (key, v) :: rest else (k, w) :: setField rest key v

/-- JS a || b. -/
def jsOr (a b : JVal) : JVal := if truthy a then a else b

mutual
/-- Recursion weight of a value under deepMerge: only plain-object values
are recursed into by the merge, so only they contribute their own weight
to a field list. Used as the (sufficient) fuel of the merge. -/
def jweight : JVal → Nat
  | .obj fs => 1 + jweightFields fs
  | .arr xs => 1 + jweightElems xs
  | .str s => 1 + s.length
  | _ => 1

def jweightFields : List (String × JVal) → Nat
  | [] => 0
  | (_, v) :: rest => 1 + entryWeight v + jweightFields rest

def jweightElems : List JVal → Nat
  | [] => 0
  | v :: rest => 1 + entryWeight v + jweightElems rest

def entryWeight : JVal → Nat
  | .obj fs => 1 + jweightFields fs
  | _ => 0
end

/-- The for-in loop of deepMerge, abstracted over the recursive merge
call dm: result starts as the spread of target, and each source entry is
assigned into it, recursing on plain-object source values:

  for (const key in source) {
    if (source[key] && typeof source[key] === 'object'
        && !Array.isArray(source[key])) {
      result[key] = deepMerge(target[key] || {}, source[key])
    } else {
      result[key] = source[key]
    }
  }
-/
def mergeEntriesWith (dm : JVal → JVal → JVal) (target : JVal) :
    List (String × JVal) → List (String × JVal) → List (String × JVal)
  | result, [] => result
  | result, (key, v) :: rest =>
      if isRecord v then
        mergeEntriesWith dm target
          (setField result key (dm (jsOr (getProp target key) (JVal.obj [])) v)) rest
      else
        mergeEntriesWith dm target (setField result key v) rest

/-- Fuel-indexed merge; the fuel only funds the recursion of the
equation below and is otherwise inert (deepMerge passes jweight source,
which is proved sufficient: see the theorem deepMerge_eq, which recovers
the exact recursion equation of the JavaScript source). -/
def deepMergeF : Nat → JVal → JVal → JVal
  | 0, target, _ => target
  | fuel + 1, target, source =>
    if truthy source = false then target
    else if truthy target = false then source
    else
      JVal.obj
        (mergeEntriesWith (deepMergeF fuel) target (ownEntries target) (ownEntries source))

/-- Shallow embedding of deepMerge (src/utils.ts):

  export function deepMerge(target: any, source: any): any {
    if (!source) return target
    if (!target) return source
    const result = { ...target }
    for (const key in source) {
      if (source[key] && typeof source[key] === 'object'
          && !Array.isArray(source[key])) {
        result[key] = deepMerge(target[key] || {}, source[key])
      } else {
        result[key] = source[key]
      }
    }
    return result
  }

The spread initialises the result object from target's own enumerable
properties; the for-in loop walks source's own enumerable properties in
insertion order (mergeEntriesWith). The theorem deepMerge_eq establishes
the exact recursion equation of this JavaScript definition. -/
def deepMerge (target source : JVal) : JVal :=
  deepMergeF (jweight source) target source

/-- The value stored by one loop iteration of deepMerge for a source
entry (key, v): the recursive merge for plain-object values, v itself
otherwise. -/
def procVal (target : JVal) (key : String) (v : JVal) : JVal :=
  if isRecord v then deepMerge (jsOr (getProp target key) (JVal.obj [])) v else v

/-- Keys of a field list. -/
def keys (l : List (String × JVal)) : List String := l.map Prod.fst

/-- key does not occur in the field list. -/
def keyNotIn (key : String) : List (String × JVal) → Bool
  | [] => true
  | (k, _) :: rest => (k != key) && keyNotIn key rest

/-- The field list holds no duplicate keys (the invariant of every JS
object). -/
def nodupKeys : List (String × JVal) → Bool
  | [] => true
  | (k, _) :: rest => keyNotIn k rest && nodupKeys rest

mutual
/-- Well-formed document: every object field list in it is free of
duplicate keys (true of every value a JS program can build). -/
def wfVal : JVal → Bool
  | .obj fs => nodupKeys fs && wfFields fs
  | .arr xs => wfElems xs
  | _ => true

def wfFields : List (String × JVal) → Bool
  | [] => true
  | (_, v) :: rest => wfVal v && wfFields rest

def wfElems : List JVal → Bool
  | [] => true
  | v :: rest => wfVal v && wfElems rest
end

mutual
/-- Key-wise agreement of a merged document m with an override document
v: on every key present in v the two agree, recursing when both hold
plain objects at that key; a non-object override value must be matched
exactly. -/
def agreesWith : JVal → JVal → Bool
  | m, .obj vfs =>
      (match m with
       | .obj _ => agreesFields m vfs
       | _ => false)
  | m, v => beqVal m v

def agreesFields : JVal → List (String × JVal) → Bool
  | _, [] => true
  | m, (k, v) :: rest => agreesWith (getProp m k) v && agreesFields m rest
end

/-- The document (an object) has the key among its fields. -/
def hasProp (v : JVal) (key : String) : Bool :=
  match v with
  | .obj fs => (lookupField fs key).isSome
  | _ => false

/-! ## Heap model of deepMerge

JavaScript objects live on a heap and are passed by reference, so the
no-mutation claim about deepMerge is stated against an explicit store:
objects are cells addressed by naturals, values are primitives or
references, and the merge is re-run as a store transformer performing
exactly the allocations ({ ...target }, the {} default, the result
object) and field writes (result[key] = ...) of the source. -/

/-- Heap-level JS values: primitives are immediate, every object or array
is a reference into the store. -/
inductive HVal : Type where
  | null : HVal
  | undefined : HVal
  | bool : Bool → HVal
  | num : Int → HVal
  | str : String → HVal
  | ref : Nat → HVal
deriving DecidableEq

/-- A heap object: array flag plus own enumerable fields in insertion
order (arrays carry their index-keyed elements). -/
structure HObj where
  isArray : Bool
  fields : List (String × HVal)
deriving DecidableEq

/-- The JS heap: next fresh address and the allocated cells. -/
structure Store where
  next : Nat
  mem : List (Nat × HObj)
deriving DecidableEq

/-- Address lookup in the cell list. -/
def lookupAddr : List (Nat × HObj) → Nat → Option HObj
  | [], _ => none
  | (b, o) :: rest, a => if b = a then some o else lookupAddr rest a

/-- Read a cell of the store. -/
def findStore (σ : Store) (a : Nat) : Option HObj := lookupAddr σ.mem a

/-- Read a cell, defaulting to an empty object (never reached on stores
produced by a JS program: no dangling references exist). -/
def getHObj (σ : Store) (a : Nat) : HObj := (findStore σ a).getD ⟨false, []⟩

/-- Allocate a fresh cell (object literal evaluation). -/
def allocStore (σ : Store) (o : HObj) : Store × Nat :=
  (⟨σ.next + 1, (σ.next, o) :: σ.mem⟩, σ.next)

/-- Truthiness of heap values: references (all objects and arrays) are
truthy. -/
def htruthy : HVal → Bool
  | .null => false
  | .undefined => false
  | .bool b => b
  | .num n => n != 0
  | .str s => !s.isEmpty
  | .ref _ => true

/-- First-match lookup in a heap field list. -/
def lookupHField : List (String × HVal) → String → Option HVal
  | [], _ => none
  | (k, v) :: rest, key => if k = key then some v else lookupHField rest key

/-- Field assignment on a heap field list: replace in place or append. -/
def setHField : List (String × HVal) → String → HVal → List (String × HVal)
  | [], key, v => [(key, v)]
  | (k, w) :: rest, key, v =>
      if k = key then (key, v) :: rest else (k, w) :: setHField rest key v

/-- Index-keyed character entries of a string (for-in / spread over a
string). -/
def hStrEntries (s : String) : List (String × HVal) :=
  s.data.enum.map (fun p => (toString p.1, HVal.str (String.mk [p.2])))

/-- Own enumerable properties of a heap value under a store. -/
def hOwnEntries (σ : Store) : HVal → List (String × HVal)
  | .ref a => (getHObj σ a).fields
  | .str s => hStrEntries s
  | _ => []

/-- JS property read target[key] under a store. -/
def hGetProp (σ : Store) (v : HVal) (key : String) : HVal :=
  match v with
  | .ref a => (lookupHField (getHObj σ a).fields key).getD .undefined
  | .str s => (lookupHField (hStrEntries s) key).getD .undefined
  | _ => .undefined

/-- The loop test of deepMerge at heap level: the value is truthy, of
object type and not an array, i.e. a reference to a non-array cell. -/
def hIsRecord (σ : Store) : HVal → Bool
  | .ref a => !(getHObj σ a).isArray
  | _ => false

/-- Write one field of the cell at the given address. -/
def writeMem : List (Nat × HObj) → Nat → String → HVal → List (Nat × HObj)
  | [], _, _, _ => []
  | (b, o) :: rest, a, key, v =>
      if b = a then (b, ⟨o.isArray, setHField o.fields key v⟩) :: rest
      else (b, o) :: writeMem rest a key v

/-- result[key] = v: a store write to the result's address. -/
def writeField (σ : Store) (a : Nat) (key : String) (v : HVal) : Store :=
  ⟨σ.next, writeMem σ.mem a key v⟩

/-- The for-in loop of deepMerge as a store transformer, abstracted over
the recursive merge call dm. ra is the address of the freshly allocated
result object; target[key] || {} allocates a fresh empty object when the
read is falsy, exactly as the JS expression does. The entries list is the
snapshot of source's own enumerable properties: the loop only ever writes
to ra, a fresh address, so live re-reads of source would yield the same
values. -/
def mergeLoopH (dm : Store → HVal → HVal → Store × HVal) (target : HVal)
    (ra : Nat) : Store → List (String × HVal) → Store
  | σ, [] => σ
  | σ, (key, v) :: rest =>
      if hIsRecord σ v then
        let tv := hGetProp σ target key
        let alloc1 :=
          if htruthy tv then (σ, tv)
          else
            let fresh := allocStore σ ⟨false, []⟩
            (fresh.1, HVal.ref fresh.2)
        let merged := dm alloc1.1 alloc1.2 v
        mergeLoopH dm target ra (writeField merged.1 ra key merged.2) rest
      else
        mergeLoopH dm target ra (writeField σ ra key v) rest

/-- deepMerge as a store transformer (fuel-indexed like the pure version;
on fuel exhaustion — possible only on cyclic heaps, where the JS source
diverges — it returns without touching the store):

  if (!source) return target
  if (!target) return source
  const result = { ...target }          // fresh allocation, shallow copy
  for (const key in source) { ... }     // writes only to result
  return result
-/
def deepMergeH : Nat → Store → HVal → HVal → Store × HVal
  | 0, σ, target, _ => (σ, target)
  | fuel + 1, σ, target, source =>
    if htruthy source = false then (σ, target)
    else if htruthy target = false then (σ, source)
    else
      let a1 := allocStore σ ⟨false, hOwnEntries σ target⟩
      (mergeLoopH (deepMergeH fuel) target a1.2 a1.1 (hOwnEntries σ source),
       HVal.ref a1.2)

/-! ## The application composition factory (src/app)

Shallow embedding of defineApplication (src/app/index default export) and
its helpers defineDeployment, defineCICD, defineScaler and the types of
src/app/types.ts. Pulumi outputs are modelled by Deferred (a value
resolved later by the provisioning engine, combined only through map);
resource registrations (new k8s...) are modelled as an emission trace of
events, and thrown configuration errors as Except values. The trace
survives an exception, exactly as resources already registered in Pulumi
do when a later statement throws. Service-constructor and
environment-function invocations are recorded in the same trace as ghost
events so that invocation order is observable. -/

/-- A value not known until resolution by the provisioning engine
(pulumi.Output); composition code only maps over it. -/
structure Deferred (α : Type) where
  val : α
deriving DecidableEq

/-- output.apply(f). -/
def Deferred.map (f : α → β) (d : Deferred α) : Deferred β := ⟨f d.val⟩

/-- Cluster (src/app/types.ts): platform identity; the provider handle is
opaque and only threaded into resource options, so it carries no data
here. The optional stackReference is likewise opaque and unused by the
composition core. -/
structure Cluster where
  platform : String
deriving DecidableEq

/-- The 'fast' | 'cheap' storage tier argument of getStorageClass. -/
inductive StorageTier : Type where
  | fast : StorageTier
  | cheap : StorageTier
deriving DecidableEq

/-- Domain (src/app/types.ts). -/
structure Domain where
  zone : String
  subdomain : String
deriving DecidableEq

/-- ApplicationIngress (src/app/types.ts). The final field is the
annotation map. -/
structure ApplicationIngress where
  domains : List Domain
  healthCheck : Option String
  annots : Option (List (String × String))
deriving DecidableEq

/-- DeploymentScaler (src/app/types.ts and src/app/scaler.ts). -/
structure DeploymentScaler where
  minReplicas : Int
  maxReplicas : Int
  targetCPUUtilization : Int
deriving DecidableEq

/-- The deploy identity resolved by the platform:
{ name, namespace } (the second field is the namespace). -/
structure ServiceAccountRef where
  name : String
  nspace : String
deriving DecidableEq

/-- cicd context of FactoryContext:
getDeployServiceAccount: (cluster) => Output<{name, namespace}> | null.
The callback field itself is optional because the source guards it with
optional chaining (factoryConfig.cicd?.getDeployServiceAccount). -/
structure CICDContext where
  getDeployServiceAccount : Option (Cluster → Option (Deferred ServiceAccountRef))

/-- DeploymentArgs (src/app/deployment.ts). secrets: string | null.
Overrides are structured documents fed to deepMerge. -/
structure DeploymentArgs where
  name : String
  image : String
  tag : Option String
  containerPort : Option Int
  containerOverride : Option JVal
  deploymentOverride : Option JVal
  ingress : Option ApplicationIngress
  scaler : Option DeploymentScaler
  secrets : Option String

/-- The argument object of the exposeService callback:
{ ...args, namespace, name, containerPort, ingress } with containerPort
and ingress narrowed to present values (src/app/deployment.ts). -/
structure ExposedServiceArgs where
  name : String
  image : String
  tag : Option String
  containerPort : Int
  containerOverride : Option JVal
  deploymentOverride : Option JVal
  ingress : ApplicationIngress
  scaler : Option DeploymentScaler
  secrets : Option String
  nspace : String

/-- FactoryContext (src/app/types.ts). The opaque ExposedServiceResult is
modelled as a structured document. The services field (extra service
constructors merged by ApplicationFactory's constructor, src/app/index.ts)
is consumed before defineApplication runs and is not part of this
embedding. -/
structure FactoryContext where
  getStorageClass : Cluster → StorageTier → String
  exposeService : Option (Cluster → ExposedServiceArgs → JVal)
  cicd : Option CICDContext

/-- ServiceArgs (src/app/types.ts): what each service constructor is
invoked with. -/
structure ServiceArgs where
  applicationName : String
  nspace : String
  cluster : Cluster
  context : FactoryContext

/-- An environment mapping: ordered variable name / value pairs. -/
def Env := List (String × String)
deriving instance DecidableEq for Env

/-- Application.environment (src/app/types.ts): absent, a static mapping,
or a function of the resolved services map returning a mapping (or
nothing). -/
inductive EnvSpec : Type where
  | absent : EnvSpec
  | val : Env → EnvSpec
  | fn : (List (String × JVal) → Option Env) → EnvSpec

/-- DeploymentConfig (src/app/types.ts): one entry of
Application.deployments. -/
structure DeploymentConfig where
  name : Option String
  image : String
  tag : Option String
  containerPort : Option Int
  containerOverride : Option JVal
  deploymentOverride : Option JVal
  ingress : Option ApplicationIngress
  scaler : Option DeploymentScaler

/-- Application (src/app/types.ts). The second field is the optional
namespace override. Service results are structured documents; the
services mapping preserves declaration order. -/
structure Application where
  name : String
  nspace : Option String
  repository : Option String
  environment : EnvSpec
  services : Option (List (String × (ServiceArgs → JVal)))
  deployments : Option (List DeploymentConfig)
  cicd : Option Bool

/-- A role-binding subject: { kind, name, namespace } with the name and
namespace mapped off the deferred deploy identity. -/
structure Subject where
  kind : String
  name : Deferred String
  nspace : Deferred String
deriving DecidableEq

/-- The resource specifications the composition emits, keyed by their
Pulumi logical resource name. -/
inductive Resource : Type where
  | namespaceRes (resName metaName : String)
  | secretRes (resName metaName nspace : String) (stringData : Env)
  | deploymentRes (resName : String) (spec : JVal)
  | hpaRes (resName metaName nspace target : String)
      (minReplicas maxReplicas targetCPUUtilization : Int)
  | roleRes (resName metaName nspace : String) (rules : JVal)
  | roleBindingRes (resName metaName nspace : String) (subjects : List Subject)
      (roleRefName : Deferred String)

/-- One step of the composition trace: a resource emission, a service
constructor invocation, or the environment function invocation (with the
services map it receives). -/
inductive Event : Type where
  | emitted (r : Resource)
  | serviceInvoked (name : String)
  | environmentInvoked (services : List (String × JVal))

/-- Secret-bundle emissions, for counting them in a trace. -/
def isSecretEvent : Event → Bool
  | .emitted (.secretRes _ _ _ _) => true
  | _ => false

/-- defineScaler (src/app/scaler.ts): emits one HorizontalPodAutoscaler
bound to the target and returns the numeric spec it was given. -/
def defineScaler (target : String) (scaler : DeploymentScaler)
    (nspace : String) (cluster : Cluster) : DeploymentScaler × List Event :=
  (scaler,
   [Event.emitted (Resource.hpaRes target ("for-" ++ target) nspace target
      scaler.minReplicas scaler.maxReplicas scaler.targetCPUUtilization)])

/-- The rules document of the github-deployer role (src/app/cicd.ts). -/
def githubRoleRules : JVal :=
  JVal.arr [
    JVal.obj [("apiGroups", JVal.arr [JVal.str "apps"]),
      ("resources", JVal.arr [JVal.str "deployments"]),
      ("verbs", JVal.arr [JVal.str "get", JVal.str "list", JVal.str "patch", JVal.str "update"])],
    JVal.obj [("apiGroups", JVal.arr [JVal.str ""]),
      ("resources", JVal.arr [JVal.str "pods"]),
      ("verbs", JVal.arr [JVal.str "get", JVal.str "list", JVal.str "watch"])],
    JVal.obj [("apiGroups", JVal.arr [JVal.str ""]),
      ("resources", JVal.arr [JVal.str "pods/log"]),
      ("verbs", JVal.arr [JVal.str "get", JVal.str "list"])],
    JVal.obj [("apiGroups", JVal.arr [JVal.str "batch"]),
      ("resources", JVal.arr [JVal.str "jobs"]),
      ("verbs", JVal.arr [JVal.str "get", JVal.str "list", JVal.str "create", JVal.str "delete", JVal.str "watch"])],
    JVal.obj [("apiGroups", JVal.arr [JVal.str "batch"]),
      ("resources", JVal.arr [JVal.str "cronjobs"]),
      ("verbs", JVal.arr [JVal.str "get", JVal.str "list", JVal.str "patch", JVal.str "update"])]]

/-- Result of defineCICD (src/app/cicd.ts): { skipped: true } or
{ role: { name, subjects } }. -/
inductive CICDResult : Type where
  | skipped : CICDResult
  | role (name : Deferred String) (subjects : List Subject) : CICDResult

/-- defineCICD (src/app/cicd.ts):

  if (!factoryConfig.cicd?.getDeployServiceAccount) return { skipped: true }
  const deployServiceAccount = factoryConfig.cicd.getDeployServiceAccount(cluster)
  if (!deployServiceAccount) return { skipped: true }
  ... one Role and one RoleBinding whose subject carries the resolved
  identity's name and namespace ...
-/
def defineCICD (app : Application) (nspace : String) (cluster : Cluster)
    (factoryConfig : FactoryContext) : CICDResult × List Event :=
  match factoryConfig.cicd with
  | none => (.skipped, [])
  | some c =>
    match c.getDeployServiceAccount with
    | none => (.skipped, [])
    | some getDSA =>
      match getDSA cluster with
      | none => (.skipped, [])
      | some deployServiceAccount =>
        let roleName : Deferred String := ⟨"github-deployer"⟩
        let subjects : List Subject :=
          [⟨"ServiceAccount",
            Deferred.map (fun sa => sa.name) deployServiceAccount,
            Deferred.map (fun sa => sa.nspace) deployServiceAccount⟩]
        (.role roleName subjects,
         [Event.emitted (Resource.roleRes (app.name ++ "-github-role")
            "github-deployer" nspace githubRoleRules),
          Event.emitted (Resource.roleBindingRes (app.name ++ "-github-binding")
            "github-deployer" nspace subjects roleName)])

/-- Result of defineDeployment: { name, containerPort, ingress, scaler }
with name the deployment's deferred metadata name and ingress the
exposure callback's result when exposure happened. -/
structure DeploymentResult where
  name : Deferred String
  containerPort : Option Int
  ingress : Option JVal
  scaler : Option DeploymentScaler

/-- The probe document of defineDeployment:
containerPort && ingress?.healthCheck ? { httpGet: { path, port } } :
undefined. -/
def probeSpec (args : DeploymentArgs) : JVal :=
  match args.containerPort, args.ingress with
  | some p, some ing =>
    match ing.healthCheck with
    | some hc =>
        if p != 0 && !hc.isEmpty then
          JVal.obj [("httpGet", JVal.obj [("path", JVal.str hc), ("port", JVal.num p)])]
        else JVal.undefined
    | none => JVal.undefined
  | _, _ => JVal.undefined

/-- The merged container document of defineDeployment: the base container
(name, image:tag, the single named HTTP port when containerPort is
truthy, the secret reference when secrets is truthy, the probe as both
liveness and readiness) deep-merged with containerOverride. -/
def composedContainerSpec (args : DeploymentArgs) : JVal :=
  let tag := args.tag.getD "latest"
  let probe := probeSpec args
  let ports : JVal :=
    match args.containerPort with
    | some p =>
        if p != 0 then
          JVal.arr [JVal.obj [("containerPort", JVal.num p),
            ("name", JVal.str "http"), ("protocol", JVal.str "TCP")]]
        else JVal.undefined
    | none => JVal.undefined
  let envFrom : JVal :=
    match args.secrets with
    | some s =>
        if !s.isEmpty then
          JVal.arr [JVal.obj [("secretRef", JVal.obj [("name", JVal.str s)])]]
        else JVal.undefined
    | none => JVal.undefined
  let baseContainer : JVal :=
    JVal.obj [("name", JVal.str args.name),
      ("image", JVal.str (args.image ++ ":" ++ tag)),
      ("ports", ports),
      ("envFrom", envFrom),
      ("livenessProbe", probe),
      ("readinessProbe", probe)]
  deepMerge baseContainer (args.containerOverride.getD (JVal.obj []))

/-- The final deployment document of defineDeployment: the base
deployment (metadata, one replica, label selector, template embedding the
composed container) deep-merged with deploymentOverride. -/
def composedDeploymentSpec (args : DeploymentArgs) (nspace : String) : JVal :=
  let name := args.name
  let baseDeployment : JVal :=
    JVal.obj [
      ("metadata", JVal.obj [("name", JVal.str name),
        ("namespace", JVal.str nspace),
        ("labels", JVal.obj [("app.kubernetes.io/name", JVal.str name)])]),
      ("spec", JVal.obj [
        ("replicas", JVal.num 1),
        ("selector", JVal.obj [("matchLabels",
          JVal.obj [("app.kubernetes.io/name", JVal.str name)])]),
        ("template", JVal.obj [
          ("metadata", JVal.obj [("labels",
            JVal.obj [("app.kubernetes.io/name", JVal.str name)])]),
          ("spec", JVal.obj [("containers",
            JVal.arr [composedContainerSpec args])])])])]
  deepMerge baseDeployment (args.deploymentOverride.getD (JVal.obj []))

/-- defineDeployment (src/app/deployment.ts). Steps in source order:
ingress/port precondition check (throws before anything is emitted);
probe derivation; container composition and deepMerge with
containerOverride; deployment composition and deepMerge with
deploymentOverride (composedDeploymentSpec); emission of the Deployment
resource (the source also excludes spec.replicas and the container image
from drift detection via ignoreChanges — provisioning-engine options with
no compositional content); the exposure step (throws after the deployment
resource was already emitted when exposeService is missing); the optional
scaler. -/
def defineDeployment (args : DeploymentArgs) (nspace : String)
    (cluster : Cluster) (factoryConfig : FactoryContext) :
    List Event × Except String DeploymentResult :=
  let name := args.name
  -- if (ingress && !containerPort) throw: an ingress object is truthy;
  -- a containerPort of 0 or undefined is falsy.
  let portTruthy : Bool :=
    match args.containerPort with
    | some p => p != 0
    | none => false
  if args.ingress.isSome && !portTruthy then
    ([], .error ("Container port must be defined when using ingress for application " ++ name))
  else
    let finalDeployment := composedDeploymentSpec args nspace
    let deployEvents := [Event.emitted (Resource.deploymentRes name finalDeployment)]
    let finish : Option JVal → List Event × Except String DeploymentResult :=
      fun exposedService =>
        match args.scaler with
        | some sc =>
            let sres := defineScaler name sc nspace cluster
            (deployEvents ++ sres.2,
             .ok ⟨⟨name⟩, args.containerPort, exposedService, some sres.1⟩)
        | none => (deployEvents, .ok ⟨⟨name⟩, args.containerPort, exposedService, none⟩)
    -- if (ingress && containerPort) { if (!factoryConfig.exposeService) throw ... }
    match args.ingress, args.containerPort with
    | some ing, some p =>
        if p != 0 then
          match factoryConfig.exposeService with
          | none =>
              (deployEvents,
               .error ("exposeService is required when ingress is configured for deployment " ++ name))
          | some expose =>
              finish (some (expose cluster
                ⟨name, args.image, args.tag, p, args.containerOverride,
                 args.deploymentOverride, ing, args.scaler, args.secrets, nspace⟩))
        else finish none
    | _, _ => finish none

/-- namespace = app?.namespace || app.name (the empty string is falsy). -/
def resolveNamespace (app : Application) : String :=
  match app.nspace with
  | some ns => if ns.isEmpty then app.name else ns
  | none => app.name

/-- defineServices (src/app/index.ts): invoke every declared service
constructor once, in declaration order, then compute the environment —
calling app.environment with the resolved services map when it is a
function. Constructor and environment invocations are recorded as ghost
trace events. -/
def defineServices (app : Application) (nspace : String) (cluster : Cluster)
    (factoryConfig : FactoryContext) :
    List (String × JVal) × Option Env × List Event :=
  let sargs : ServiceArgs := ⟨app.name, nspace, cluster, factoryConfig⟩
  let entries := app.services.getD []
  let services := entries.map (fun p => (p.1, p.2 sargs))
  let callEvents := entries.map (fun p => Event.serviceInvoked p.1)
  match app.environment with
  | .fn f => (services, f services, callEvents ++ [Event.environmentInvoked services])
  | .val e => (services, some e, callEvents)
  | .absent => (services, none, callEvents)

/-- defineSecrets (src/app/index.ts):

  if (!environment) return null
  return new k8s.core.v1.Secret(app.name, { stringData: environment,
    metadata: { name: for-(app.name), namespace } }).metadata.name

A present environment is truthy even when the mapping is empty (only
null/undefined are falsy); the returned secret reference is the metadata
name. -/
def defineSecrets (app : Application) (nspace : String)
    (environment : Option Env) : Option String × List Event :=
  match environment with
  | none => (none, [])
  | some env =>
      (some ("for-" ++ app.name),
       [Event.emitted (Resource.secretRes app.name ("for-" ++ app.name) nspace env)])

/-- The argument object of one deployment composition:
{ name: app.name, secrets, ...deploymentConfig } — the config's own name
wins when present, the threaded secret reference is never overridden
because DeploymentConfig has no secrets field. -/
def mkDeploymentArgs (appName : String) (secrets : Option String)
    (cfg : DeploymentConfig) : DeploymentArgs :=
  ⟨cfg.name.getD appName, cfg.image, cfg.tag, cfg.containerPort,
   cfg.containerOverride, cfg.deploymentOverride, cfg.ingress, cfg.scaler, secrets⟩

/-- (app.deployments || []).map(defineDeployment ...): a thrown
configuration error aborts the remaining deployments; events emitted
before the throw remain. -/
def defineDeployments (appName : String) (secrets : Option String)
    (nspace : String) (cluster : Cluster) (factoryConfig : FactoryContext) :
    List DeploymentConfig → List Event × Except String (List DeploymentResult)
  | [] => ([], .ok [])
  | cfg :: rest =>
      let dres := defineDeployment (mkDeploymentArgs appName secrets cfg)
        nspace cluster factoryConfig
      match dres.2 with
      | .error e => (dres.1, .error e)
      | .ok d =>
          let more := defineDeployments appName secrets nspace cluster factoryConfig rest
          match more.2 with
          | .error e => (dres.1 ++ more.1, .error e)
          | .ok ds => (dres.1 ++ more.1, .ok (d :: ds))

/-- The full composition result of one application. -/
structure ApplicationResult where
  nspace : String
  secrets : Option String
  services : List (String × JVal)
  deployments : List DeploymentResult
  cicd : Option CICDResult

/-- defineApplication (src/app/index.ts default export): namespace →
services → environment → secret bundle → deployments → CI/CD (unless
app.cicd === false), returning { namespace, secrets, services,
deployments, cicd }. Any deployment error aborts the composition; the
events already emitted remain in the trace. -/
def defineApplication (app : Application) (cluster : Cluster)
    (factoryConfig : FactoryContext) :
    List Event × Except String ApplicationResult :=
  let nspace := resolveNamespace app
  let nsEvents := [Event.emitted (Resource.namespaceRes nspace nspace)]
  let sres := defineServices app nspace cluster factoryConfig
  let secres := defineSecrets app nspace sres.2.1
  let dres := defineDeployments app.name secres.1 nspace cluster factoryConfig
    (app.deployments.getD [])
  match dres.2 with
  | .error e => (nsEvents ++ sres.2.2 ++ secres.2 ++ dres.1, .error e)
  | .ok ds =>
      let cic : Option CICDResult × List Event :=
        match app.cicd with
        | some false => (none, [])
        | _ =>
            let c := defineCICD app nspace cluster factoryConfig
            (some c.1, c.2)
      (nsEvents ++ sres.2.2 ++ secres.2 ++ dres.1 ++ cic.2,
       .ok ⟨nspace, secres.1, sres.1, ds, cic.1⟩)

/-! ## Groundwork: deepMerge satisfies the recursion equation of the
JavaScript source -/

theorem jweight_pos : ∀ v : JVal, 1 ≤ jweight v := by
  intro v
  cases v <;> simp [jweight]

theorem entryWeight_eq_jweight {v : JVal} (h : isRecord v = true) :
    entryWeight v = jweight v := by
  cases v <;> simp_all [isRecord, entryWeight, jweight]

theorem entryWeight_le_of_mem : ∀ {entries : List (String × JVal)}
    {k : String} {v : JVal}, (k, v) ∈ entries →
    entryWeight v ≤ jweightFields entries := by
  intro entries
  induction entries with
  | nil => intro k v h; cases h
  | cons p rest ih =>
      obtain ⟨q, w⟩ := p
      intro k v h
      rcases List.mem_cons.mp h with h1 | h2
      · injection h1 with hk hv
        subst hk; subst hv
        simp only [jweightFields]
        omega
      · have := ih h2
        simp only [jweightFields]
        omega

theorem jweightFields_enumFrom (n : Nat) (xs : List JVal) :
    jweightFields ((List.enumFrom n xs).map (fun p => (toString p.1, p.2)))
      = jweightElems xs := by
  induction xs generalizing n with
  | nil => rfl
  | cons x rest ih =>
      simp only [List.enumFrom, List.map, jweightFields, jweightElems]
      rw [ih]

theorem jweightFields_strEnumFrom (n : Nat) (cs : List Char) :
    jweightFields ((List.enumFrom n cs).map
        (fun p => (toString p.1, JVal.str (String.mk [p.2]))))
      = cs.length := by
  induction cs generalizing n with
  | nil => rfl
  | cons c rest ih =>
      simp only [List.enumFrom, List.map, jweightFields, List.length, entryWeight]
      rw [ih]
      omega

theorem ownEntries_weight_lt (s : JVal) :
    jweightFields (ownEntries s) < jweight s := by
  cases s with
  | obj fs => simp [ownEntries, jweight]
  | arr xs =>
      simp only [ownEntries, arrEntries, List.enum, jweight]
      rw [jweightFields_enumFrom]
      omega
  | str s =>
      simp only [ownEntries, strEntries, List.enum, jweight]
      rw [jweightFields_strEnumFrom]
      have h : String.length s = s.data.length := rfl
      omega
  | null => simp [ownEntries, jweight, jweightFields]
  | undefined => simp [ownEntries, jweight, jweightFields]
  | bool b => simp [ownEntries, jweight, jweightFields]
  | num n => simp [ownEntries, jweight, jweightFields]

theorem mergeEntriesWith_congr {dm₁ dm₂ : JVal → JVal → JVal} (target : JVal)
    {entries : List (String × JVal)}
    (h : ∀ k v, (k, v) ∈ entries → isRecord v = true → ∀ b, dm₁ b v = dm₂ b v) :
    ∀ res, mergeEntriesWith dm₁ target res entries
      = mergeEntriesWith dm₂ target res entries := by
  induction entries with
  | nil => intro res; rfl
  | cons p rest ih =>
      intro res
      obtain ⟨k, v⟩ := p
      by_cases hr : isRecord v = true
      · simp only [mergeEntriesWith, hr, if_pos]
        rw [h k v (List.mem_cons_self _ _) hr]
        exact ih (fun k' v' hm hr' b => h k' v' (List.mem_cons_of_mem _ hm) hr' b) _
      · simp only [mergeEntriesWith, hr, if_neg, Bool.false_eq_true, not_false_iff]
        exact ih (fun k' v' hm hr' b => h k' v' (List.mem_cons_of_mem _ hm) hr' b) _

theorem deepMergeF_congr : ∀ (n m : Nat) (target source : JVal),
    jweight source ≤ n → jweight source ≤ m →
    deepMergeF n target source = deepMergeF m target source := by
  intro n
  induction n with
  | zero => intro m t s hn; have := jweight_pos s; omega
  | succ n ih =>
      intro m t s hn hm
      have hpos := jweight_pos s
      cases m with
      | zero => omega
      | succ m =>
          simp only [deepMergeF]
          by_cases hs : truthy s = false
          · simp [hs]
          · by_cases ht : truthy t = false
            · simp [hs, ht]
            · rw [if_neg hs, if_neg ht, if_neg hs, if_neg ht]
              apply congrArg JVal.obj
              apply mergeEntriesWith_congr
              intro k v hmem hrec b
              have hw : jweight v ≤ jweightFields (ownEntries s) := by
                rw [← entryWeight_eq_jweight hrec]
                exact entryWeight_le_of_mem hmem
              have hlt := ownEntries_weight_lt s
              have h1 : jweight v ≤ n := by omega
              have h2 : jweight v ≤ m := by omega
              exact ih m b v h1 h2

theorem deepMergeF_eq_deepMerge {n : Nat} {source : JVal} (target : JVal)
    (h : jweight source ≤ n) :
    deepMergeF n target source = deepMerge target source :=
  deepMergeF_congr n (jweight source) target source h (Nat.le_refl _)

/-- deepMerge satisfies exactly the recursion equation of the JavaScript
source: early returns on falsy source / falsy target, otherwise the
spread of target updated by the for-in loop over source. -/
theorem deepMerge_eq (target source : JVal) :
    deepMerge target source =
      if truthy source = false then target
      else if truthy target = false then source
      else JVal.obj (mergeEntriesWith deepMerge target
        (ownEntries target) (ownEntries source)) := by
  have hpos := jweight_pos source
  rcases Nat.exists_eq_add_of_le hpos with ⟨m, hm⟩
  show deepMergeF (jweight source) target source = _
  rw [hm]
  simp only [Nat.add_comm 1 m]
  simp only [deepMergeF]
  by_cases hs : truthy source = false
  · simp [hs]
  · by_cases ht : truthy target = false
    · simp [hs, ht]
    · rw [if_neg hs, if_neg ht, if_neg hs, if_neg ht]
      apply congrArg JVal.obj
      apply mergeEntriesWith_congr
      intro k v hmem hrec b
      have hw : jweight v ≤ jweightFields (ownEntries source) := by
        rw [← entryWeight_eq_jweight hrec]
        exact entryWeight_le_of_mem hmem
      have hlt := ownEntries_weight_lt source
      exact deepMergeF_eq_deepMerge b (by omega)

/-- Merging two plain objects runs the loop over the override's fields on
a copy of the base's fields. -/
theorem deepMerge_obj_obj (bfs ofs : List (String × JVal)) :
    deepMerge (JVal.obj bfs) (JVal.obj ofs)
      = JVal.obj (mergeEntriesWith deepMerge (JVal.obj bfs) bfs ofs) := by
  rw [deepMerge_eq]
  rfl

/-! ## Groundwork: lookup characterization of the merge loop -/

theorem lookupField_setField (l : List (String × JVal)) (k : String) (v : JVal)
    (k' : String) :
    lookupField (setField l k v) k' = if k = k' then some v else lookupField l k' := by
  induction l with
  | nil =>
      simp only [setField, lookupField]
  | cons p rest ih =>
      obtain ⟨q, w⟩ := p
      by_cases hq : q = k
      · subst hq
        simp only [setField, if_pos rfl, lookupField]
        split_ifs <;> rfl
      · simp only [setField, if_neg hq, lookupField]
        by_cases hq' : q = k'
        · have hk : ¬ k = k' := fun h => hq (hq'.trans h.symm)
          simp [hq', hk]
        · simp [hq', ih]

theorem lookupField_append (l1 l2 : List (String × JVal)) (k : String) :
    lookupField (l1 ++ l2) k =
      match lookupField l1 k with
      | some v => some v
      | none => lookupField l2 k := by
  induction l1 with
  | nil => simp [lookupField]
  | cons p rest ih =>
      obtain ⟨q, w⟩ := p
      by_cases hq : q = k
      · simp [lookupField, hq]
      · simp only [List.cons_append, lookupField, if_neg hq]
        exact ih

theorem lookupField_eq_none_iff (l : List (String × JVal)) (k : String) :
    lookupField l k = none ↔ k ∉ keys l := by
  induction l with
  | nil => simp [lookupField, keys]
  | cons p rest ih =>
      obtain ⟨q, w⟩ := p
      by_cases hq : q = k
      · subst hq
        simp [lookupField, keys]
      · simp only [lookupField, if_neg hq, ih, keys, List.map, List.mem_cons]
        constructor
        · intro h hc
          rcases hc with hc | hc
          · exact hq hc.symm
          · exact h hc
        · intro h hc
          exact h (Or.inr hc)

theorem keyNotIn_iff (k : String) (l : List (String × JVal)) :
    keyNotIn k l = true ↔ k ∉ keys l := by
  induction l with
  | nil => simp [keyNotIn, keys]
  | cons p rest ih =>
      obtain ⟨q, w⟩ := p
      simp only [keyNotIn, Bool.and_eq_true, bne_iff_ne, ne_eq, ih, keys,
        List.map, List.mem_cons]
      constructor
      · rintro ⟨h1, h2⟩ hc
        rcases hc with hc | hc
        · exact h1 hc.symm
        · exact h2 hc
      · intro h
        constructor
        · intro hc; exact h (Or.inl hc.symm)
        · intro hc; exact h (Or.inr hc)

theorem lookupField_of_mem_nodup : ∀ {l : List (String × JVal)} {k : String}
    {v : JVal}, nodupKeys l = true → (k, v) ∈ l → lookupField l k = some v := by
  intro l
  induction l with
  | nil => intro k v _ h; cases h
  | cons p rest ih =>
      obtain ⟨q, w⟩ := p
      intro k v hnd hmem
      simp only [nodupKeys, Bool.and_eq_true] at hnd
      rcases List.mem_cons.mp hmem with h1 | h2
      · injection h1 with hk hv
        subst hk; subst hv
        simp [lookupField]
      · have hq : ¬ q = k := by
          intro hqk
          subst hqk
          have := (keyNotIn_iff q rest).mp hnd.1
          exact this (List.mem_map_of_mem Prod.fst h2)
        simp only [lookupField, if_neg hq]
        exact ih hnd.2 h2

theorem mergeEntriesWith_lookup_notmem (dm : JVal → JVal → JVal) (t : JVal) :
    ∀ {entries : List (String × JVal)} (res : List (String × JVal)) {k : String},
      k ∉ keys entries →
      lookupField (mergeEntriesWith dm t res entries) k = lookupField res k := by
  intro entries
  induction entries with
  | nil => intro res k _; rfl
  | cons p rest ih =>
      obtain ⟨q, v⟩ := p
      intro res k hk
      simp only [keys, List.map, List.mem_cons] at hk
      push_neg at hk
      have hq : ¬ q = k := fun h => hk.1 h.symm
      have hrest : k ∉ keys rest := hk.2
      by_cases hr : isRecord v = true
      · simp only [mergeEntriesWith, if_pos hr]
        rw [ih _ hrest, lookupField_setField, if_neg hq]
      · simp only [mergeEntriesWith, if_neg hr]
        rw [ih _ hrest, lookupField_setField, if_neg hq]

theorem mergeEntriesWith_lookup_mem (dm : JVal → JVal → JVal) (t : JVal) :
    ∀ {entries : List (String × JVal)} (res : List (String × JVal)) {k : String}
      {v : JVal}, nodupKeys entries = true → (k, v) ∈ entries →
      lookupField (mergeEntriesWith dm t res entries) k
        = some (if isRecord v then dm (jsOr (getProp t k) (JVal.obj [])) v else v) := by
  intro entries
  induction entries with
  | nil => intro res k v _ h; cases h
  | cons p rest ih =>
      obtain ⟨q, w⟩ := p
      intro res k v hnd hmem
      simp only [nodupKeys, Bool.and_eq_true] at hnd
      rcases List.mem_cons.mp hmem with h1 | h2
      · injection h1 with hk hv
        subst hk; subst hv
        have hkrest : k ∉ keys rest := (keyNotIn_iff k rest).mp hnd.1
        by_cases hr : isRecord v = true
        · simp only [mergeEntriesWith, if_pos hr]
          rw [mergeEntriesWith_lookup_notmem dm t _ hkrest,
            lookupField_setField, if_pos rfl]
        · simp only [mergeEntriesWith, if_neg hr]
          rw [mergeEntriesWith_lookup_notmem dm t _ hkrest,
            lookupField_setField, if_pos rfl]
      · by_cases hr : isRecord w = true
        · simp only [mergeEntriesWith, if_pos hr]
          exact ih _ hnd.2 h2
        · simp only [mergeEntriesWith, if_neg hr]
          exact ih _ hnd.2 h2

theorem setField_fresh (l : List (String × JVal)) (k : String) (v : JVal)
    (h : lookupField l k = none) : setField l k v = l ++ [(k, v)] := by
  induction l with
  | nil => rfl
  | cons p rest ih =>
      obtain ⟨q, w⟩ := p
      simp only [lookupField] at h
      by_cases hq : q = k
      · simp [hq] at h
      · simp only [setField, if_neg hq, List.cons_append]
        rw [ih (by simpa [hq] using h)]

theorem mergeEntriesWith_fresh (dm : JVal → JVal → JVal) (t : JVal) :
    ∀ {entries : List (String × JVal)} (res : List (String × JVal)),
      nodupKeys entries = true →
      (∀ k, k ∈ keys entries → lookupField res k = none) →
      mergeEntriesWith dm t res entries
        = res ++ entries.map (fun p =>
            (p.1, if isRecord p.2 then dm (jsOr (getProp t p.1) (JVal.obj [])) p.2 else p.2)) := by
  intro entries
  induction entries with
  | nil => intro res _ _; simp [mergeEntriesWith]
  | cons p rest ih =>
      obtain ⟨q, v⟩ := p
      intro res hnd hfresh
      simp only [nodupKeys, Bool.and_eq_true] at hnd
      have hqres : lookupField res q = none :=
        hfresh q (by simp [keys])
      have hfresh' : ∀ k, k ∈ keys rest →
          lookupField (res ++ [(q, if isRecord v then dm (jsOr (getProp t q) (JVal.obj [])) v else v)]) k = none := by
        intro k hk
        have hq : ¬ q = k := by
          intro hqk
          subst hqk
          exact (keyNotIn_iff q rest).mp hnd.1 hk
        rw [lookupField_append]
        have h1 : lookupField res k = none :=
          hfresh k (by simp only [keys, List.map, List.mem_cons]; exact Or.inr hk)
        rw [h1]
        simp [lookupField, hq]
      by_cases hr : isRecord v = true
      · simp only [mergeEntriesWith, if_pos hr]
        rw [setField_fresh _ _ _ hqres]
        rw [ih _ hnd.2 (by simpa [hr] using hfresh')]
        simp [hr, List.append_assoc]
      · simp only [mergeEntriesWith, if_neg hr]
        rw [setField_fresh _ _ _ hqres]
        rw [ih _ hnd.2 (by simpa [hr] using hfresh')]
        simp [hr, List.append_assoc]

/-! ## Groundwork: reflexivity of structural equality, well-formedness,
agreement -/

mutual
theorem beqVal_refl : ∀ v : JVal, beqVal v v = true
  | .null => rfl
  | .undefined => rfl
  | .bool b => by simp [beqVal]
  | .num n => by simp [beqVal]
  | .str s => by simp [beqVal]
  | .arr xs => beqElems_refl xs
  | .obj fs => beqFields_refl fs

theorem beqElems_refl : ∀ xs : List JVal, beqElems xs xs = true
  | [] => rfl
  | x :: xs => by
      simp only [beqElems, Bool.and_eq_true]
      exact ⟨beqVal_refl x, beqElems_refl xs⟩

theorem beqFields_refl : ∀ fs : List (String × JVal), beqFields fs fs = true
  | [] => rfl
  | (k, v) :: fs => by
      simp only [beqFields, Bool.and_eq_true]
      exact ⟨⟨by simp, beqVal_refl v⟩, beqFields_refl fs⟩
end

theorem wfFields_forall : ∀ {fs : List (String × JVal)}, wfFields fs = true →
    ∀ {k : String} {v : JVal}, (k, v) ∈ fs → wfVal v = true := by
  intro fs
  induction fs with
  | nil => intro _ k v h; cases h
  | cons p rest ih =>
      obtain ⟨q, w⟩ := p
      intro hwf k v hmem
      simp only [wfFields, Bool.and_eq_true] at hwf
      rcases List.mem_cons.mp hmem with h1 | h2
      · injection h1 with hk hv
        subst hv
        exact hwf.1
      · exact ih hwf.2 h2

theorem wfVal_obj {fs : List (String × JVal)} (h : wfVal (JVal.obj fs) = true) :
    nodupKeys fs = true ∧ wfFields fs = true := by
  simpa [wfVal, Bool.and_eq_true] using h

theorem agreesFields_of_forall : ∀ {fs : List (String × JVal)} {m : JVal},
    (∀ k v, (k, v) ∈ fs → agreesWith (getProp m k) v = true) →
    agreesFields m fs = true := by
  intro fs
  induction fs with
  | nil => intro m _; rfl
  | cons p rest ih =>
      obtain ⟨q, w⟩ := p
      intro m h
      simp only [agreesFields, Bool.and_eq_true]
      exact ⟨h q w (List.mem_cons_self _ _),
        ih (fun k v hm => h k v (List.mem_cons_of_mem _ hm))⟩

/-- Key-wise agreement is reflexive on well-formed documents. -/
theorem agreesWith_refl : ∀ v : JVal, wfVal v = true → agreesWith v v = true := by
  have main : ∀ n : Nat, ∀ v : JVal, jweight v ≤ n → wfVal v = true →
      agreesWith v v = true := by
    intro n
    induction n with
    | zero => intro v hw; have := jweight_pos v; omega
    | succ n ih =>
        intro v hw hwf
        cases v with
        | obj fs =>
            have hdec := wfVal_obj hwf
            simp only [agreesWith]
            apply agreesFields_of_forall
            intro k v hmem
            have hlook : lookupField fs k = some v :=
              lookupField_of_mem_nodup hdec.1 hmem
            have hget : getProp (JVal.obj fs) k = v := by
              simp [getProp, hlook]
            rw [hget]
            cases hv : v with
            | obj gs =>
                have hwfv : wfVal v = true := wfFields_forall hdec.2 hmem
                have hwv : jweight v ≤ n := by
                  have h1 : entryWeight v ≤ jweightFields fs :=
                    entryWeight_le_of_mem hmem
                  have h2 : entryWeight v = jweight v := by
                    rw [hv]; rfl
                  simp only [jweight] at hw
                  omega
                rw [← hv]
                exact ih v hwv hwfv
            | null => rfl
            | undefined => rfl
            | bool b => simp [agreesWith, beqVal]
            | num m => simp [agreesWith, beqVal]
            | str s => simp [agreesWith, beqVal]
            | arr xs => simpa [agreesWith] using beqElems_refl xs
        | null => rfl
        | undefined => rfl
        | bool b => simp [agreesWith, beqVal]
        | num m => simp [agreesWith, beqVal]
        | str s => simp [agreesWith, beqVal]
        | arr xs => simpa [agreesWith] using beqElems_refl xs
  intro v
  exact main (jweight v) v (Nat.le_refl _)

/-- Merging into the empty object copies a well-formed object:
deepMerge({}, X) = X. -/
theorem deepMerge_emptyobj_left : ∀ v : JVal, wfVal v = true →
    isRecord v = true → deepMerge (JVal.obj []) v = v := by
  have main : ∀ n : Nat, ∀ v : JVal, jweight v ≤ n → wfVal v = true →
      isRecord v = true → deepMerge (JVal.obj []) v = v := by
    intro n
    induction n with
    | zero => intro v hw; have := jweight_pos v; omega
    | succ n ih =>
        intro v hw hwf hrec
        cases v with
        | obj fs =>
            have hdec := wfVal_obj hwf
            rw [deepMerge_obj_obj]
            apply congrArg JVal.obj
            rw [mergeEntriesWith_fresh deepMerge (JVal.obj []) [] hdec.1
              (fun k _ => rfl)]
            simp only [List.nil_append]
            have : ∀ p, p ∈ fs → (p.1,
                if isRecord p.2 then
                  deepMerge (jsOr (getProp (JVal.obj []) p.1) (JVal.obj [])) p.2
                else p.2) = p := by
              intro p hp
              obtain ⟨k, v⟩ := p
              by_cases hr : isRecord v = true
              · simp only [hr, if_pos]
                have hget : getProp (JVal.obj []) k = JVal.undefined := rfl
                rw [hget]
                have hor : jsOr JVal.undefined (JVal.obj []) = JVal.obj [] := rfl
                rw [hor]
                have hwfv : wfVal v = true := wfFields_forall hdec.2 hp
                have hwv : jweight v ≤ n := by
                  have h1 : entryWeight v ≤ jweightFields fs :=
                    entryWeight_le_of_mem hp
                  have h2 : entryWeight v = jweight v := entryWeight_eq_jweight hr
                  simp only [jweight] at hw
                  omega
                rw [ih v hwv hwfv hr]
              · simp [hr]
            calc List.map (fun p => (p.1,
                  if isRecord p.2 then
                    deepMerge (jsOr (getProp (JVal.obj []) p.1) (JVal.obj [])) p.2
                  else p.2)) fs
                = List.map id fs := List.map_congr_left this
              _ = fs := List.map_id fs
        | null => simp [isRecord] at hrec
        | undefined => simp [isRecord] at hrec
        | bool b => simp [isRecord] at hrec
        | num m => simp [isRecord] at hrec
        | str s => simp [isRecord] at hrec
        | arr xs => simp [isRecord] at hrec
  intro v
  exact main (jweight v) v (Nat.le_refl _)

/-- The merged document agrees key-wise with a well-formed override:
the recursive right-bias of deepMerge. -/
theorem agreesWith_deepMerge : ∀ v : JVal, wfVal v = true →
    isRecord v = true → ∀ b : JVal, agreesWith (deepMerge b v) v = true := by
  have main : ∀ n : Nat, ∀ v : JVal, jweight v ≤ n → wfVal v = true →
      isRecord v = true → ∀ b : JVal, agreesWith (deepMerge b v) v = true := by
    intro n
    induction n with
    | zero => intro v hw; have := jweight_pos v; omega
    | succ n ih =>
        intro v hw hwf hrec b
        cases v with
        | obj fs =>
            have hdec := wfVal_obj hwf
            rw [deepMerge_eq]
            have hts : ¬ truthy (JVal.obj fs) = false := by simp [truthy]
            rw [if_neg hts]
            by_cases htb : truthy b = false
            · rw [if_pos htb]
              exact agreesWith_refl _ hwf
            · rw [if_neg htb]
              rw [show ownEntries (JVal.obj fs) = fs from rfl]
              show agreesFields
                (JVal.obj (mergeEntriesWith deepMerge b (ownEntries b) fs)) fs = true
              apply agreesFields_of_forall
              intro k v hmem
              have hlook := mergeEntriesWith_lookup_mem deepMerge b
                (ownEntries b) hdec.1 hmem
              have hget : getProp (JVal.obj (mergeEntriesWith deepMerge b
                  (ownEntries b) fs)) k
                  = (if isRecord v then
                      deepMerge (jsOr (getProp b k) (JVal.obj [])) v else v) := by
                simp [getProp, hlook]
              rw [hget]
              by_cases hr : isRecord v = true
              · simp only [if_pos hr]
                have hwfv : wfVal v = true := wfFields_forall hdec.2 hmem
                have hwv : jweight v ≤ n := by
                  have h1 : entryWeight v ≤ jweightFields fs :=
                    entryWeight_le_of_mem hmem
                  have h2 : entryWeight v = jweight v := entryWeight_eq_jweight hr
                  simp only [jweight] at hw
                  omega
                exact ih v hwv hwfv hr _
              · simp only [if_neg hr]
                cases v with
                | obj gs => simp [isRecord] at hr
                | null => rfl
                | undefined => rfl
                | bool c => simp [agreesWith, beqVal]
                | num m => simp [agreesWith, beqVal]
                | str s => simp [agreesWith, beqVal]
                | arr xs => simpa [agreesWith] using beqElems_refl xs
        | null => simp [isRecord] at hrec
        | undefined => simp [isRecord] at hrec
        | bool c => simp [isRecord] at hrec
        | num m => simp [isRecord] at hrec
        | str s => simp [isRecord] at hrec
        | arr xs => simp [isRecord] at hrec
  intro v hwf hrec b
  exact main (jweight v) v (Nat.le_refl _) hwf hrec b

/-- A key present in the override with a non-record value (scalar,
sequence, or explicit null) ends up in the merge with exactly that
value. -/
theorem getProp_deepMerge_of_mem_nonrecord (b : JVal)
    {ofs : List (String × JVal)} {k : String} {v : JVal}
    (hnd : nodupKeys ofs = true) (hmem : (k, v) ∈ ofs)
    (hr : isRecord v = false) :
    getProp (deepMerge b (JVal.obj ofs)) k = v := by
  rw [deepMerge_eq]
  have hts : ¬ truthy (JVal.obj ofs) = false := by simp [truthy]
  rw [if_neg hts]
  by_cases htb : truthy b = false
  · rw [if_pos htb]
    simp [getProp, lookupField_of_mem_nodup hnd hmem]
  · rw [if_neg htb]
    rw [show ownEntries (JVal.obj ofs) = ofs from rfl]
    have hlook := mergeEntriesWith_lookup_mem deepMerge b (ownEntries b) hnd hmem
    simp [getProp, hlook, hr]

/-- A key absent from the override keeps the base object's value. -/
theorem getProp_deepMerge_notmem (bfs ofs : List (String × JVal)) (k : String)
    (hk : k ∉ keys ofs) :
    getProp (deepMerge (JVal.obj bfs) (JVal.obj ofs)) k
      = getProp (JVal.obj bfs) k := by
  rw [deepMerge_obj_obj]
  show (lookupField (mergeEntriesWith deepMerge (JVal.obj bfs) bfs ofs) k).getD .undefined = _
  rw [mergeEntriesWith_lookup_notmem deepMerge (JVal.obj bfs) bfs hk]
  rfl

/-! ## Claims C2, C5, C6, C9: the deep-merge contract -/

/-- C2 counterexample: the claim states that an explicit null in the
override leaves the base value untouched; the code instead lets null
overwrite the base value (null is falsy, so it is assigned in the else
branch of the loop). At base = (a: 1), override = (a: null), the merge
yields null at key a, not the base's 1. -/
theorem c2_null_counterexample :
    deepMerge (JVal.obj [("a", JVal.num 1)]) (JVal.obj [("a", JVal.null)])
      = JVal.obj [("a", JVal.null)]
    ∧ getProp (JVal.obj [("a", JVal.num 1)]) "a" = JVal.num 1
    ∧ getProp (deepMerge (JVal.obj [("a", JVal.num 1)])
        (JVal.obj [("a", JVal.null)])) "a" = JVal.null
    ∧ ¬ getProp (deepMerge (JVal.obj [("a", JVal.num 1)])
        (JVal.obj [("a", JVal.null)])) "a" = JVal.num 1 := by
  refine ⟨rfl, rfl, rfl, ?_⟩
  intro h
  rw [show getProp (deepMerge (JVal.obj [("a", JVal.num 1)])
      (JVal.obj [("a", JVal.null)])) "a" = JVal.null from rfl] at h
  exact JVal.noConfusion h

/-- C2 (amended): an explicit null carried by the override at some key
replaces the base's value with null, like every other non-record
override value; only a key absent from the override leaves the base's
value untouched. -/
theorem c2_null_override (b : JVal) (bfs ofs : List (String × JVal)) (k : String) :
    (nodupKeys ofs = true → (k, JVal.null) ∈ ofs →
        getProp (deepMerge b (JVal.obj ofs)) k = JVal.null)
    ∧ (k ∉ keys ofs →
        getProp (deepMerge (JVal.obj bfs) (JVal.obj ofs)) k
          = getProp (JVal.obj bfs) k) := by
  constructor
  · intro hnd hmem
    exact getProp_deepMerge_of_mem_nonrecord b hnd hmem rfl
  · intro hk
    exact getProp_deepMerge_notmem bfs ofs k hk

theorem c2_null_override_witness :
    getProp (deepMerge (JVal.obj [("a", JVal.num 1), ("b", JVal.num 2)])
      (JVal.obj [("a", JVal.null)])) "a" = JVal.null
    ∧ getProp (deepMerge (JVal.obj [("a", JVal.num 1), ("b", JVal.num 2)])
        (JVal.obj [("a", JVal.null)])) "b"
      = getProp (JVal.obj [("a", JVal.num 1), ("b", JVal.num 2)]) "b" :=
  ⟨(c2_null_override (JVal.obj [("a", JVal.num 1), ("b", JVal.num 2)])
      [("a", JVal.num 1), ("b", JVal.num 2)] [("a", JVal.null)] "a").1
      rfl (by simp),
   (c2_null_override (JVal.obj [("a", JVal.num 1), ("b", JVal.num 2)])
      [("a", JVal.num 1), ("b", JVal.num 2)] [("a", JVal.null)] "b").2
      (by simp [keys])⟩

/-- C5: for well-formed structured base and override, the merge agrees
key-wise with the override on every key the override holds (recursing
through plain objects: agreesWith), keeps the base's value on every key
only the base holds, and holds every key the override holds. -/
theorem c5_merge_right_bias (bfs ofs : List (String × JVal))
    (hwb : wfVal (JVal.obj bfs) = true) (hwo : wfVal (JVal.obj ofs) = true) :
    agreesWith (deepMerge (JVal.obj bfs) (JVal.obj ofs)) (JVal.obj ofs) = true
    ∧ (∀ k, k ∈ keys bfs → k ∉ keys ofs →
        getProp (deepMerge (JVal.obj bfs) (JVal.obj ofs)) k
          = getProp (JVal.obj bfs) k)
    ∧ (∀ k, k ∈ keys ofs →
        hasProp (deepMerge (JVal.obj bfs) (JVal.obj ofs)) k = true) := by
  refine ⟨agreesWith_deepMerge (JVal.obj ofs) hwo rfl (JVal.obj bfs), ?_, ?_⟩
  · intro k _ hk
    exact getProp_deepMerge_notmem bfs ofs k hk
  · intro k hk
    obtain ⟨p, hp, hfst⟩ := List.mem_map.mp hk
    obtain ⟨q, v⟩ := p
    subst hfst
    have hnd := (wfVal_obj hwo).1
    rw [deepMerge_obj_obj]
    show (lookupField (mergeEntriesWith deepMerge (JVal.obj bfs) bfs ofs) q).isSome = true
    rw [mergeEntriesWith_lookup_mem deepMerge (JVal.obj bfs) bfs hnd hp]
    rfl

theorem c5_merge_right_bias_witness :
    agreesWith
      (deepMerge
        (JVal.obj [("a", JVal.obj [("x", JVal.num 1), ("y", JVal.num 2)]), ("keep", JVal.num 7)])
        (JVal.obj [("a", JVal.obj [("y", JVal.num 9)])]))
      (JVal.obj [("a", JVal.obj [("y", JVal.num 9)])]) = true
    ∧ getProp
        (deepMerge
          (JVal.obj [("a", JVal.obj [("x", JVal.num 1), ("y", JVal.num 2)]), ("keep", JVal.num 7)])
          (JVal.obj [("a", JVal.obj [("y", JVal.num 9)])])) "keep" = JVal.num 7
    ∧ hasProp
        (deepMerge
          (JVal.obj [("a", JVal.obj [("x", JVal.num 1), ("y", JVal.num 2)]), ("keep", JVal.num 7)])
          (JVal.obj [("a", JVal.obj [("y", JVal.num 9)])])) "a" = true := by
  have h := c5_merge_right_bias
    [("a", JVal.obj [("x", JVal.num 1), ("y", JVal.num 2)]), ("keep", JVal.num 7)]
    [("a", JVal.obj [("y", JVal.num 9)])] rfl rfl
  refine ⟨h.1, ?_, h.2.2 "a" (by simp [keys])⟩
  have h2 := h.2.1 "keep" (by simp [keys]) (by simp [keys])
  rw [h2]
  rfl

/-- C6: a sequence carried by the override at some key replaces the base
value at that key wholesale — never concatenated or merged
element-wise. -/
theorem c6_sequence_replacement (b : JVal) (ofs : List (String × JVal))
    (k : String) (xs : List JVal)
    (hnd : nodupKeys ofs = true) (hmem : (k, JVal.arr xs) ∈ ofs) :
    getProp (deepMerge b (JVal.obj ofs)) k = JVal.arr xs :=
  getProp_deepMerge_of_mem_nonrecord b hnd hmem rfl

theorem c6_sequence_replacement_witness :
    getProp
      (deepMerge (JVal.obj [("list", JVal.arr [JVal.num 1, JVal.num 2, JVal.num 3])])
        (JVal.obj [("list", JVal.arr [JVal.num 9])])) "list"
      = JVal.arr [JVal.num 9]
    ∧ deepMerge (JVal.obj [("list", JVal.arr [JVal.num 1, JVal.num 2, JVal.num 3])])
        (JVal.obj [("list", JVal.arr [JVal.num 9])])
      = JVal.obj [("list", JVal.arr [JVal.num 9])] :=
  ⟨c6_sequence_replacement
      (JVal.obj [("list", JVal.arr [JVal.num 1, JVal.num 2, JVal.num 3])])
      [("list", JVal.arr [JVal.num 9])] "list" [JVal.num 9] rfl (by simp),
   rfl⟩

/-- C9: the empty document is a two-sided identity of the merge on
well-formed structured documents, and an absent (null or undefined)
override returns the base while an absent base returns the override. -/
theorem c9_merge_identity (X : JVal) (hwf : wfVal X = true)
    (hrec : isRecord X = true) :
    deepMerge X (JVal.obj []) = X
    ∧ deepMerge (JVal.obj []) X = X
    ∧ deepMerge X JVal.null = X
    ∧ deepMerge X JVal.undefined = X
    ∧ deepMerge JVal.null X = X
    ∧ deepMerge JVal.undefined X = X := by
  cases X with
  | obj fs =>
      refine ⟨?_, deepMerge_emptyobj_left _ hwf hrec, rfl, rfl, ?_, ?_⟩
      · rw [deepMerge_eq]
        rfl
      · rw [deepMerge_eq]
        rfl
      · rw [deepMerge_eq]
        rfl
  | null => simp [isRecord] at hrec
  | undefined => simp [isRecord] at hrec
  | bool b => simp [isRecord] at hrec
  | num n => simp [isRecord] at hrec
  | str s => simp [isRecord] at hrec
  | arr xs => simp [isRecord] at hrec

theorem c9_merge_identity_witness :
    deepMerge (JVal.obj [("a", JVal.num 1)]) (JVal.obj []) = JVal.obj [("a", JVal.num 1)]
    ∧ deepMerge (JVal.obj []) (JVal.obj [("a", JVal.num 1)]) = JVal.obj [("a", JVal.num 1)]
    ∧ deepMerge (JVal.obj [("a", JVal.num 1)]) JVal.null = JVal.obj [("a", JVal.num 1)]
    ∧ deepMerge (JVal.obj [("a", JVal.num 1)]) JVal.undefined = JVal.obj [("a", JVal.num 1)]
    ∧ deepMerge JVal.null (JVal.obj [("a", JVal.num 1)]) = JVal.obj [("a", JVal.num 1)]
    ∧ deepMerge JVal.undefined (JVal.obj [("a", JVal.num 1)]) = JVal.obj [("a", JVal.num 1)] :=
  c9_merge_identity (JVal.obj [("a", JVal.num 1)]) rfl rfl

/-! ## Claim C10: deepMerge mutates neither argument (heap frame
property) -/

theorem lookupAddr_writeMem_ne : ∀ (mem : List (Nat × HObj)) (b : Nat)
    (key : String) (v : HVal) (a : Nat), ¬ b = a →
    lookupAddr (writeMem mem b key v) a = lookupAddr mem a := by
  intro mem b key v
  induction mem with
  | nil => intro a _; rfl
  | cons p rest ih =>
      obtain ⟨c, o⟩ := p
      intro a hba
      by_cases hc : c = b
      · subst hc
        simp only [writeMem, if_pos rfl, lookupAddr, if_neg hba]
      · simp only [writeMem, if_neg hc, lookupAddr]
        by_cases hca : c = a
        · simp [hca]
        · simp only [if_neg hca]
          exact ih a hba

theorem findStore_writeField_ne (σ : Store) (b : Nat) (key : String)
    (v : HVal) (a : Nat) (h : ¬ b = a) :
    findStore (writeField σ b key v) a = findStore σ a :=
  lookupAddr_writeMem_ne σ.mem b key v a h

theorem findStore_alloc_ne (σ : Store) (o : HObj) (a : Nat)
    (h : ¬ σ.next = a) :
    findStore (allocStore σ o).1 a = findStore σ a := by
  simp only [allocStore, findStore, lookupAddr, if_neg h]

/-- Frame property of the merge loop: the store past the loop agrees
with the store before it on every address allocated before the call
other than the freshly allocated result address ra, provided the
recursive merge call dm itself only grows the store and preserves
pre-existing addresses. -/
theorem mergeLoopH_frame : ∀ (entries : List (String × HVal))
    (dm : Store → HVal → HVal → Store × HVal)
    (hdm : ∀ σ t s, σ.next ≤ (dm σ t s).1.next
      ∧ ∀ a, a < σ.next → findStore (dm σ t s).1 a = findStore σ a)
    (target : HVal) (ra : Nat) (σ : Store),
    σ.next ≤ (mergeLoopH dm target ra σ entries).next
    ∧ ∀ a, a < σ.next → ¬ a = ra →
        findStore (mergeLoopH dm target ra σ entries) a = findStore σ a := by
  intro entries
  induction entries with
  | nil => intro dm hdm target ra σ; exact ⟨Nat.le_refl _, fun a _ _ => rfl⟩
  | cons p rest ih =>
      obtain ⟨key, v⟩ := p
      intro dm hdm target ra σ
      by_cases hr : hIsRecord σ v = true
      · simp only [mergeLoopH, if_pos hr]
        set tv := hGetProp σ target key with htv
        set alloc1 := (if htruthy tv then (σ, tv)
          else
            let fresh := allocStore σ ⟨false, []⟩
            (fresh.1, HVal.ref fresh.2)) with halloc1
        have halloc_next : σ.next ≤ alloc1.1.next := by
          rw [halloc1]
          by_cases hh : htruthy tv = true
          · simp [hh]
          · simp only [hh, if_neg, Bool.false_eq_true, not_false_iff, if_false]
            simp [allocStore]
        have halloc_pres : ∀ a, a < σ.next →
            findStore alloc1.1 a = findStore σ a := by
          intro a haa
          rw [halloc1]
          by_cases hh : htruthy tv = true
          · simp [hh]
          · simp only [hh, if_neg, Bool.false_eq_true, not_false_iff, if_false]
            exact findStore_alloc_ne σ _ a (by omega)
        set merged := dm alloc1.1 alloc1.2 v with hmerged
        have hmnext : alloc1.1.next ≤ merged.1.next := (hdm alloc1.1 alloc1.2 v).1
        have hmpres : ∀ a, a < alloc1.1.next →
            findStore merged.1 a = findStore alloc1.1 a :=
          (hdm alloc1.1 alloc1.2 v).2
        set σw := writeField merged.1 ra key merged.2 with hσw
        have hwnext : σw.next = merged.1.next := rfl
        have hwpres : ∀ a, ¬ a = ra → findStore σw a = findStore merged.1 a := by
          intro a hra
          exact findStore_writeField_ne merged.1 ra key merged.2 a
            (fun h => hra h.symm)
        have hrest := ih dm hdm target ra σw
        constructor
        · calc σ.next ≤ alloc1.1.next := halloc_next
            _ ≤ merged.1.next := hmnext
            _ = σw.next := hwnext.symm
            _ ≤ _ := hrest.1
        · intro a haa hra
          have h1 : a < σw.next := by
            rw [hwnext]; omega
          rw [hrest.2 a h1 hra, hwpres a hra, hmpres a (by omega),
            halloc_pres a haa]
      · simp only [mergeLoopH, if_neg hr]
        set σw := writeField σ ra key v with hσw
        have hwnext : σw.next = σ.next := rfl
        have hwpres : ∀ a, ¬ a = ra → findStore σw a = findStore σ a := by
          intro a hra
          exact findStore_writeField_ne σ ra key v a (fun h => hra h.symm)
        have hrest := ih dm hdm target ra σw
        constructor
        · calc σ.next = σw.next := hwnext.symm
            _ ≤ _ := hrest.1
        · intro a haa hra
          have h1 : a < σw.next := by rw [hwnext]; omega
          rw [hrest.2 a h1 hra, hwpres a hra]

/-- Frame property of the heap-level deepMerge: the store only grows,
and every pre-existing cell is unchanged. -/
theorem deepMergeH_frame : ∀ (fuel : Nat) (σ : Store) (target source : HVal),
    σ.next ≤ (deepMergeH fuel σ target source).1.next
    ∧ ∀ a, a < σ.next →
        findStore (deepMergeH fuel σ target source).1 a = findStore σ a := by
  intro fuel
  induction fuel with
  | zero => intro σ t s; exact ⟨Nat.le_refl _, fun a _ => rfl⟩
  | succ fuel ih =>
      intro σ t s
      by_cases hs : htruthy s = false
      · have heq : deepMergeH (fuel + 1) σ t s = (σ, t) := by
          simp [deepMergeH, hs]
        rw [heq]
        exact ⟨Nat.le_refl _, fun a _ => rfl⟩
      · by_cases ht : htruthy t = false
        · have heq : deepMergeH (fuel + 1) σ t s = (σ, s) := by
            simp [deepMergeH, hs, ht]
          rw [heq]
          exact ⟨Nat.le_refl _, fun a _ => rfl⟩
        · simp only [deepMergeH, if_neg hs, if_neg ht]
          set a1 := allocStore σ ⟨false, hOwnEntries σ t⟩ with ha1
          have ha1next : a1.1.next = σ.next + 1 := rfl
          have ha1addr : a1.2 = σ.next := rfl
          have ha1pres : ∀ a, a < σ.next → findStore a1.1 a = findStore σ a := by
            intro a haa
            exact findStore_alloc_ne σ _ a (by omega)
          have hloop := mergeLoopH_frame (hOwnEntries σ s) (deepMergeH fuel)
            ih t a1.2 a1.1
          constructor
          · calc σ.next ≤ a1.1.next := by omega
              _ ≤ _ := hloop.1
          · intro a haa
            have h1 : a < a1.1.next := by omega
            have h2 : ¬ a = a1.2 := by rw [ha1addr]; omega
            rw [hloop.2 a h1 h2, ha1pres a haa]

/-- C10: deepMerge never mutates either of its arguments: run on any
store, with any fuel, every address allocated before the call — in
particular every cell of the object graphs of base and override — maps
to exactly the same cell afterwards, so both arguments are structurally
identical to their values before the call (the function only allocates
fresh cells and writes to them). -/
theorem c10_deepMerge_no_mutation (fuel : Nat) (σ : Store)
    (target source : HVal) (a : Nat) (ha : a < σ.next) :
    findStore (deepMergeH fuel σ target source).1 a = findStore σ a :=
  (deepMergeH_frame fuel σ target source).2 a ha

theorem c10_deepMerge_no_mutation_witness :
    findStore (deepMergeH 3
      ⟨2, [(0, ⟨false, [("a", HVal.num 1)]⟩), (1, ⟨false, [("a", HVal.null)]⟩)]⟩
      (HVal.ref 0) (HVal.ref 1)).1 0
      = findStore ⟨2, [(0, ⟨false, [("a", HVal.num 1)]⟩), (1, ⟨false, [("a", HVal.null)]⟩)]⟩ 0
    ∧ findStore (deepMergeH 3
      ⟨2, [(0, ⟨false, [("a", HVal.num 1)]⟩), (1, ⟨false, [("a", HVal.null)]⟩)]⟩
      (HVal.ref 0) (HVal.ref 1)).1 1
      = findStore ⟨2, [(0, ⟨false, [("a", HVal.num 1)]⟩), (1, ⟨false, [("a", HVal.null)]⟩)]⟩ 1 :=
  ⟨c10_deepMerge_no_mutation 3 _ (HVal.ref 0) (HVal.ref 1) 0 (by decide),
   c10_deepMerge_no_mutation 3 _ (HVal.ref 0) (HVal.ref 1) 1 (by decide)⟩

/-! ## Claims C4 and C1: deployment composition preconditions -/

/-- C4: a deployment config with ingress (domains) set and containerPort
unset fails immediately with the missing-port configuration error naming
the deployment, and its trace is empty: zero resources emitted. -/
theorem c4_missing_port (args : DeploymentArgs) (nspace : String)
    (cluster : Cluster) (factoryConfig : FactoryContext)
    (hing : args.ingress.isSome = true) (hport : args.containerPort = none) :
    defineDeployment args nspace cluster factoryConfig
      = ([], .error ("Container port must be defined when using ingress for application "
          ++ args.name)) := by
  simp [defineDeployment, hing, hport]

theorem c4_missing_port_witness :
    defineDeployment
      ⟨"api", "org/app", none, none, none, none,
       some ⟨[⟨"example.com", "api"⟩], none, none⟩, none, none⟩
      "web" ⟨"platoform"⟩ ⟨fun _ _ => "standard", none, none⟩
      = ([], .error "Container port must be defined when using ingress for application api") :=
  c4_missing_port
    ⟨"api", "org/app", none, none, none, none,
     some ⟨[⟨"example.com", "api"⟩], none, none⟩, none, none⟩
    "web" ⟨"platoform"⟩ ⟨fun _ _ => "standard", none, none⟩ rfl rfl

/-- C1 counterexample: with ingress set, containerPort 3000 and a
FactoryContext lacking exposeService, composing the deployment does fail
with the missing-exposure-callback error naming the deployment — but the
claim's "zero resources emitted for it" is false: the deployment workload
resource has already been emitted before the exposure check throws
(new kubernetes.apps.v1.Deployment precedes the exposeService test in the
source), so the trace is non-empty (one resource). -/
theorem c1_exposure_counterexample :
    (defineDeployment
      ⟨"api", "org/app", some "v1", some 3000, none, none,
       some ⟨[⟨"example.com", "api"⟩], none, none⟩, none, none⟩
      "web" ⟨"platoform"⟩ ⟨fun _ _ => "standard", none, none⟩).2
      = .error "exposeService is required when ingress is configured for deployment api"
    ∧ (defineDeployment
      ⟨"api", "org/app", some "v1", some 3000, none, none,
       some ⟨[⟨"example.com", "api"⟩], none, none⟩, none, none⟩
      "web" ⟨"platoform"⟩ ⟨fun _ _ => "standard", none, none⟩).1.length = 1
    ∧ ¬ (defineDeployment
      ⟨"api", "org/app", some "v1", some 3000, none, none,
       some ⟨[⟨"example.com", "api"⟩], none, none⟩, none, none⟩
      "web" ⟨"platoform"⟩ ⟨fun _ _ => "standard", none, none⟩).1 = [] :=
  ⟨rfl, rfl, fun h => List.noConfusion h⟩

/-- C1 (amended): with ingress set, a truthy containerPort and a
FactoryContext lacking exposeService, composing the deployment fails with
the missing-exposure-callback error naming the deployment; by then
exactly one resource — the deployment workload itself — has already been
emitted, and nothing further (no exposure result, no scaler) is. -/
theorem c1_missing_exposure (args : DeploymentArgs) (nspace : String)
    (cluster : Cluster) (factoryConfig : FactoryContext)
    (ing : ApplicationIngress) (p : Int)
    (hing : args.ingress = some ing) (hport : args.containerPort = some p)
    (hp : ¬ p = 0) (hexp : factoryConfig.exposeService = none) :
    defineDeployment args nspace cluster factoryConfig
      = ([Event.emitted (Resource.deploymentRes args.name
            (composedDeploymentSpec args nspace))],
         .error ("exposeService is required when ingress is configured for deployment "
           ++ args.name)) := by
  simp [defineDeployment, hing, hport, hp, hexp]

theorem c1_missing_exposure_witness :
    defineDeployment
      ⟨"api", "org/app", some "v1", some 3000, none, none,
       some ⟨[⟨"example.com", "api"⟩], none, none⟩, none, none⟩
      "web" ⟨"platoform"⟩ ⟨fun _ _ => "standard", none, none⟩
      = ([Event.emitted (Resource.deploymentRes "api"
            (composedDeploymentSpec
              ⟨"api", "org/app", some "v1", some 3000, none, none,
               some ⟨[⟨"example.com", "api"⟩], none, none⟩, none, none⟩ "web"))],
         .error "exposeService is required when ingress is configured for deployment api") :=
  c1_missing_exposure
    ⟨"api", "org/app", some "v1", some 3000, none, none,
     some ⟨[⟨"example.com", "api"⟩], none, none⟩, none, none⟩
    "web" ⟨"platoform"⟩ ⟨fun _ _ => "standard", none, none⟩
    ⟨[⟨"example.com", "api"⟩], none, none⟩ 3000 rfl rfl (by decide) rfl

/-! ## Claim C7: CI/CD skip semantics -/

/-- C7: composing CI/CD yields { skipped: true } and zero emitted
resources when context.cicd is absent, when its getDeployServiceAccount
is absent, and when the callback returns null for the cluster; when it
returns a non-null deferred identity, exactly one role and one
role-binding are emitted and the binding's single subject carries exactly
the resolved identity's name and namespace. -/
theorem c7_cicd_skip (app : Application) (nspace : String) (cluster : Cluster)
    (factoryConfig : FactoryContext) :
    (factoryConfig.cicd = none →
        defineCICD app nspace cluster factoryConfig = (.skipped, []))
    ∧ (∀ c, factoryConfig.cicd = some c → c.getDeployServiceAccount = none →
        defineCICD app nspace cluster factoryConfig = (.skipped, []))
    ∧ (∀ c g, factoryConfig.cicd = some c → c.getDeployServiceAccount = some g →
        g cluster = none →
        defineCICD app nspace cluster factoryConfig = (.skipped, []))
    ∧ (∀ c g d, factoryConfig.cicd = some c → c.getDeployServiceAccount = some g →
        g cluster = some d →
        defineCICD app nspace cluster factoryConfig
          = (.role ⟨"github-deployer"⟩
              [⟨"ServiceAccount", Deferred.map (fun sa => sa.name) d,
                Deferred.map (fun sa => sa.nspace) d⟩],
             [Event.emitted (Resource.roleRes (app.name ++ "-github-role")
                "github-deployer" nspace githubRoleRules),
              Event.emitted (Resource.roleBindingRes (app.name ++ "-github-binding")
                "github-deployer" nspace
                [⟨"ServiceAccount", Deferred.map (fun sa => sa.name) d,
                  Deferred.map (fun sa => sa.nspace) d⟩]
                ⟨"github-deployer"⟩)])) := by
  refine ⟨?_, ?_, ?_, ?_⟩
  · intro h
    simp [defineCICD, h]
  · intro c h1 h2
    simp [defineCICD, h1, h2]
  · intro c g h1 h2 h3
    simp [defineCICD, h1, h2, h3]
  · intro c g d h1 h2 h3
    simp [defineCICD, h1, h2, h3]

theorem c7_cicd_skip_witness :
    defineCICD ⟨"web", none, none, .absent, none, none, some true⟩ "web"
      ⟨"platoform"⟩ ⟨fun _ _ => "standard", none, none⟩ = (.skipped, [])
    ∧ defineCICD ⟨"web", none, none, .absent, none, none, some true⟩ "web"
      ⟨"platoform"⟩
      ⟨fun _ _ => "standard", none, some ⟨some (fun _ => none)⟩⟩ = (.skipped, [])
    ∧ defineCICD ⟨"web", none, none, .absent, none, none, some true⟩ "web"
      ⟨"platoform"⟩
      ⟨fun _ _ => "standard", none,
       some ⟨some (fun _ => some ⟨⟨"deployer", "cicd"⟩⟩)⟩⟩
      = (.role ⟨"github-deployer"⟩
          [⟨"ServiceAccount", ⟨"deployer"⟩, ⟨"cicd"⟩⟩],
         [Event.emitted (Resource.roleRes "web-github-role" "github-deployer"
            "web" githubRoleRules),
          Event.emitted (Resource.roleBindingRes "web-github-binding"
            "github-deployer" "web"
            [⟨"ServiceAccount", ⟨"deployer"⟩, ⟨"cicd"⟩⟩] ⟨"github-deployer"⟩)]) := by
  refine ⟨?_, ?_, ?_⟩
  · exact (c7_cicd_skip ⟨"web", none, none, .absent, none, none, some true⟩ "web"
      ⟨"platoform"⟩ ⟨fun _ _ => "standard", none, none⟩).1 rfl
  · exact ((c7_cicd_skip ⟨"web", none, none, .absent, none, none, some true⟩ "web"
      ⟨"platoform"⟩ ⟨fun _ _ => "standard", none, some ⟨some (fun _ => none)⟩⟩).2.2.1
      ⟨some (fun _ => none)⟩ (fun _ => none) rfl rfl rfl)
  · exact (((c7_cicd_skip ⟨"web", none, none, .absent, none, none, some true⟩ "web"
      ⟨"platoform"⟩ ⟨fun _ _ => "standard", none,
        some ⟨some (fun _ => some ⟨⟨"deployer", "cicd"⟩⟩)⟩⟩).2.2.2
      ⟨some (fun _ => some ⟨⟨"deployer", "cicd"⟩⟩)⟩
      (fun _ => some ⟨⟨"deployer", "cicd"⟩⟩) ⟨⟨"deployer", "cicd"⟩⟩
      rfl rfl rfl).trans rfl)

/-! ## Claim C8: service constructor invocation order and the
environment function -/

theorem exists_tail3 (x : Event) (A B C : List Event) :
    ∃ rest, (([x] ++ A) ++ B) ++ C = x :: (A ++ rest) :=
  ⟨B ++ C, by simp⟩

theorem exists_tail4 (x : Event) (A B C D : List Event) :
    ∃ rest, ((([x] ++ A) ++ B) ++ C) ++ D = x :: (A ++ rest) :=
  ⟨B ++ C ++ D, by simp⟩

/-- C8: within one application composition, every declared service
constructor is invoked exactly once, in declaration order (the ghost
trace equals the declaration-order list of invocation events); when the
environment is a function it is invoked exactly once, after all service
constructors, with the exact resolved services map as argument, and its
return value becomes the secret bundle's payload. The composition's
trace starts with the namespace emission followed by this service
trace. -/
theorem c8_service_invocation (app : Application) (nspace : String)
    (cluster : Cluster) (factoryConfig : FactoryContext) :
    (defineServices app nspace cluster factoryConfig).1
      = (app.services.getD []).map
          (fun p => (p.1, p.2 ⟨app.name, nspace, cluster, factoryConfig⟩))
    ∧ (defineServices app nspace cluster factoryConfig).2.2
      = (app.services.getD []).map (fun p => Event.serviceInvoked p.1)
        ++ (match app.environment with
            | .fn _ => [Event.environmentInvoked
                ((app.services.getD []).map
                  (fun p => (p.1, p.2 ⟨app.name, nspace, cluster, factoryConfig⟩)))]
            | _ => [])
    ∧ (∀ f, app.environment = .fn f →
        (defineServices app nspace cluster factoryConfig).2.1
          = f ((app.services.getD []).map
              (fun p => (p.1, p.2 ⟨app.name, nspace, cluster, factoryConfig⟩)))
        ∧ ∀ e, f ((app.services.getD []).map
              (fun p => (p.1, p.2 ⟨app.name, nspace, cluster, factoryConfig⟩))) = some e →
            defineSecrets app nspace
              (defineServices app nspace cluster factoryConfig).2.1
              = (some ("for-" ++ app.name),
                 [Event.emitted (Resource.secretRes app.name ("for-" ++ app.name)
                    nspace e)]))
    ∧ (∃ rest, (defineApplication app cluster factoryConfig).1
        = Event.emitted (Resource.namespaceRes (resolveNamespace app)
            (resolveNamespace app))
          :: ((defineServices app (resolveNamespace app) cluster factoryConfig).2.2
              ++ rest)) := by
  refine ⟨?_, ?_, ?_, ?_⟩
  · cases happ : app.environment <;> simp [defineServices, happ]
  · cases happ : app.environment <;> simp [defineServices, happ]
  · intro f hf
    constructor
    · simp [defineServices, hf]
    · intro e he
      simp [defineServices, defineSecrets, hf, he]
  · simp only [defineApplication]
    split
    · exact exists_tail3 _ _ _ _
    · exact exists_tail4 _ _ _ _ _

theorem c8_service_invocation_witness :
    (defineServices
      ⟨"web", none, none, .fn (fun _ => some [("URL", "u")]),
       some [("redis", fun _ => JVal.str "r1"), ("db", fun _ => JVal.str "d1")],
       none, some false⟩
      "web" ⟨"platoform"⟩ ⟨fun _ _ => "standard", none, none⟩).2.2
      = [Event.serviceInvoked "redis", Event.serviceInvoked "db",
         Event.environmentInvoked [("redis", JVal.str "r1"), ("db", JVal.str "d1")]]
    ∧ defineSecrets
        ⟨"web", none, none, .fn (fun _ => some [("URL", "u")]),
         some [("redis", fun _ => JVal.str "r1"), ("db", fun _ => JVal.str "d1")],
         none, some false⟩
        "web"
        (defineServices
          ⟨"web", none, none, .fn (fun _ => some [("URL", "u")]),
           some [("redis", fun _ => JVal.str "r1"), ("db", fun _ => JVal.str "d1")],
           none, some false⟩
          "web" ⟨"platoform"⟩ ⟨fun _ _ => "standard", none, none⟩).2.1
      = (some "for-web",
         [Event.emitted (Resource.secretRes "web" "for-web" "web" [("URL", "u")])]) := by
  have h := c8_service_invocation
    ⟨"web", none, none, .fn (fun _ => some [("URL", "u")]),
     some [("redis", fun _ => JVal.str "r1"), ("db", fun _ => JVal.str "d1")],
     none, some false⟩
    "web" ⟨"platoform"⟩ ⟨fun _ _ => "standard", none, none⟩
  refine ⟨h.2.1.trans rfl, ?_⟩
  have h2 := (h.2.2.1 (fun _ => some [("URL", "u")]) rfl).2 [("URL", "u")] rfl
  exact h2.trans rfl

/-! ## Claim C3: the secret bundle -/

theorem defineDeployment_no_secret (args : DeploymentArgs) (ns : String)
    (cl : Cluster) (ctx : FactoryContext) :
    ((defineDeployment args ns cl ctx).1).filter isSecretEvent = [] := by
  simp only [defineDeployment]
  repeat' split
  all_goals simp [defineScaler, isSecretEvent]

theorem defineServices_no_secret (app : Application) (ns : String)
    (cl : Cluster) (ctx : FactoryContext) :
    ((defineServices app ns cl ctx).2.2).filter isSecretEvent = [] := by
  cases happ : app.environment <;>
    simp [defineServices, happ, isSecretEvent, List.filter_append,
      List.filter_eq_nil_iff] <;>
    (intro a x f hm ha; subst ha; rfl)

theorem isSecretEvent_namespace (a b : String) :
    isSecretEvent (Event.emitted (Resource.namespaceRes a b)) = false := rfl

theorem isSecretEvent_secret (a b c : String) (e : Env) :
    isSecretEvent (Event.emitted (Resource.secretRes a b c e)) = true := rfl

theorem defineDeployments_no_secret (an : String) (sec : Option String)
    (ns : String) (cl : Cluster) (ctx : FactoryContext) :
    ∀ cfgs : List DeploymentConfig,
    ((defineDeployments an sec ns cl ctx cfgs).1).filter isSecretEvent = [] := by
  intro cfgs
  induction cfgs with
  | nil => rfl
  | cons cfg rest ih =>
      simp only [defineDeployments]
      split
      · exact defineDeployment_no_secret _ _ _ _
      · split <;>
          simp [List.filter_append, defineDeployment_no_secret, ih]

theorem defineCICD_no_secret (app : Application) (ns : String)
    (cl : Cluster) (ctx : FactoryContext) :
    ((defineCICD app ns cl ctx).2).filter isSecretEvent = [] := by
  simp only [defineCICD]
  repeat' split
  all_goals simp [isSecretEvent]

/-- C3 counterexample: an application whose environment is the empty
mapping (present but empty). The claim says an empty environment yields
no secret bundle and no secret reference; the code checks only for a
falsy environment and an empty object is truthy in JavaScript, so one
secret bundle (with empty payload) is emitted and the deployments-facing
secret reference is populated. -/
theorem c3_empty_env_counterexample :
    defineApplication
      ⟨"web", none, none, .val [], none, none, some false⟩
      ⟨"platoform"⟩ ⟨fun _ _ => "standard", none, none⟩
      = ([Event.emitted (Resource.namespaceRes "web" "web"),
          Event.emitted (Resource.secretRes "web" "for-web" "web" [])],
         .ok ⟨"web", some "for-web", [], [], none⟩)
    ∧ ((defineApplication
        ⟨"web", none, none, .val [], none, none, some false⟩
        ⟨"platoform"⟩ ⟨fun _ _ => "standard", none, none⟩).1.filter
          isSecretEvent).length = 1
    ∧ ¬ (defineApplication
        ⟨"web", none, none, .val [], none, none, some false⟩
        ⟨"platoform"⟩ ⟨fun _ _ => "standard", none, none⟩).1.filter
          isSecretEvent = [] :=
  ⟨rfl, rfl, fun h => List.noConfusion h⟩

/-- C3 (amended): in composeApplication, whenever the computed
environment is present (non-null) — even when the mapping is empty —
exactly one secret bundle resource, named deterministically from the
application name, is emitted with the environment as its payload, and
the composition result carries the corresponding secret reference; only
an absent (null / undefined) environment yields no secret bundle and no
secret reference for the deployments. -/
theorem c3_secret_bundle (app : Application) (cluster : Cluster)
    (factoryConfig : FactoryContext) :
    (∀ e : Env,
      (defineServices app (resolveNamespace app) cluster factoryConfig).2.1 = some e →
        (defineApplication app cluster factoryConfig).1.filter isSecretEvent
          = [Event.emitted (Resource.secretRes app.name ("for-" ++ app.name)
              (resolveNamespace app) e)]
        ∧ ∀ r, (defineApplication app cluster factoryConfig).2 = .ok r →
            r.secrets = some ("for-" ++ app.name))
    ∧ ((defineServices app (resolveNamespace app) cluster factoryConfig).2.1 = none →
        (defineApplication app cluster factoryConfig).1.filter isSecretEvent = []
        ∧ ∀ r, (defineApplication app cluster factoryConfig).2 = .ok r →
            r.secrets = none) := by
  constructor
  · intro e henv
    constructor
    · simp only [defineApplication, henv, defineSecrets]
      split
      · simp [List.filter_append, List.filter_cons, isSecretEvent_namespace,
          isSecretEvent_secret, defineServices_no_secret,
          defineDeployments_no_secret]
      · split <;>
          simp [List.filter_append, List.filter_cons, isSecretEvent_namespace,
            isSecretEvent_secret, defineServices_no_secret,
            defineDeployments_no_secret, defineCICD_no_secret]
    · simp only [defineApplication, henv, defineSecrets]
      split
      · intro r hr
        cases hr
      · intro r hr
        injection hr with hr'
        rw [← hr']
  · intro henv
    constructor
    · simp only [defineApplication, henv, defineSecrets]
      split
      · simp [List.filter_append, List.filter_cons, isSecretEvent_namespace,
          defineServices_no_secret, defineDeployments_no_secret]
      · split <;>
          simp [List.filter_append, List.filter_cons, isSecretEvent_namespace,
            defineServices_no_secret, defineDeployments_no_secret,
            defineCICD_no_secret]
    · simp only [defineApplication, henv, defineSecrets]
      split
      · intro r hr
        cases hr
      · intro r hr
        injection hr with hr'
        rw [← hr']

theorem c3_secret_bundle_witness :
    (defineApplication
      ⟨"web", none, none, .val [("API_KEY", "k")], none, none, some false⟩
      ⟨"platoform"⟩ ⟨fun _ _ => "standard", none, none⟩).1.filter isSecretEvent
      = [Event.emitted (Resource.secretRes "web" "for-web" "web" [("API_KEY", "k")])]
    ∧ (defineApplication
      ⟨"web", none, none, .absent, none, none, some false⟩
      ⟨"platoform"⟩ ⟨fun _ _ => "standard", none, none⟩).1.filter isSecretEvent
      = [] := by
  constructor
  · have h := (c3_secret_bundle
      ⟨"web", none, none, .val [("API_KEY", "k")], none, none, some false⟩
      ⟨"platoform"⟩ ⟨fun _ _ => "standard", none, none⟩).1 [("API_KEY", "k")] rfl
    exact h.1.trans rfl
  · have h := (c3_secret_bundle
      ⟨"web", none, none, .absent, none, none, some false⟩
      ⟨"platoform"⟩ ⟨fun _ _ => "standard", none, none⟩).2 rfl
    exact h.1

end Platoform
